import Mathlib

/-!
Verification of the wasm-scoring core of `learning_letters`.

The Rust sources (`image_ops.rs`, `scoring.rs`, `lib.rs`) are embedded
shallowly:

* a binary raster is a `List Bool` in row-major order, read through `getB`,
  with out-of-range reads returning background (`false`), exactly as the
  in-bounds guards of the Rust code make out-of-range neighbours invisible;
* `f32` arithmetic is idealised as exact rational (`ℚ`) arithmetic; the
  literals `0.35`, `0.30`, `1.414`, `0.15` become the exact rationals they
  denote in the source text, and `f32::MAX` becomes the exact value
  `2^128 - 2^104` of that constant.  Every property proved here is robust
  to rounding of the order of `f32` epsilon at these magnitudes;
* Rust's `as u8` / `as u32` float-to-integer casts (truncation toward zero,
  saturating) become `Int.toNat ∘ Int.floor` on the already-clamped
  non-negative values at which the code applies them.
-/

namespace WasmScoring

/-- Read pixel `i` of a row-major boolean raster; out-of-range reads are
background, mirroring the bounds checks that guard every neighbour access
in `image_ops.rs`. -/
def getB (m : List Bool) (i : Nat) : Bool := m.getD i false

/-- Number of foreground (`true`) pixels of a mask, the quantity the Rust
code computes as `mask.iter().filter(|&&x| x).count()`. -/
def countTrue (m : List Bool) : Nat := (m.filter (fun b => b)).length

/-! ### Scorer: weighted combination and final score (`scoring.rs` 40-42) -/

/-- Combined score from `score_drawing_internal`:
`coverage * 0.35 + accuracy * 0.35 + similarity * 0.30`. -/
def combined_score (coverage accuracy similarity : ℚ) : ℚ :=
  coverage * (35/100) + accuracy * (35/100) + similarity * (30/100)

/-- Final integer score from `score_drawing_internal`:
`(combined_score * 100.0).min(100.0).max(0.0) as u8`.  The Rust `as u8`
cast truncates toward zero, which on the clamped non-negative value is
`Int.toNat ∘ Int.floor`. -/
def percentage_score (coverage accuracy similarity : ℚ) : ℕ :=
  (Int.floor (max 0 (min 100 (combined_score coverage accuracy similarity * 100)))).toNat

/-- Clamp to `[0,1]`, the operation named by the specification sentence
"clamp(0.35·coverage + 0.35·accuracy + 0.30·similarity, 0, 1)". -/
def clamp01 (q : ℚ) : ℚ := min 1 (max 0 q)

/-- C1 (counterexample): at coverage `0.9`, accuracy `0.9`,
similarity `0.95` the combined score is `0.915`, the code returns
`⌊91.5⌋ = 91`, but rounding to nearest as the claim states would give
`round 91.5 = 92`.  The final score is not `round(100 × clamp(...))`. -/
theorem percentage_score_ne_round :
    ¬ ((percentage_score (9/10) (9/10) (19/20) : ℤ) =
        round (100 * clamp01 (combined_score (9/10) (9/10) (19/20)))) := by
  have hq : combined_score (9/10) (9/10) (19/20) = 183/200 := by
    unfold combined_score; norm_num
  have h1 : percentage_score (9/10) (9/10) (19/20) = 91 := by
    unfold percentage_score
    rw [hq]
    norm_num
    decide
  have h2 : round (100 * clamp01 (combined_score (9/10) (9/10) (19/20))) = 92 := by
    rw [hq]
    unfold clamp01
    rw [round_eq]
    norm_num
  rw [h1, h2]
  decide

/-- C1 (amended): the final score equals
`⌊100 × clamp(0.35·coverage + 0.35·accuracy + 0.30·similarity, 0, 1)⌋`
(truncation toward zero, not rounding to nearest), an integer in 0-100. -/
theorem percentage_score_eq_floor_clamp :
    ∀ c a s : ℚ,
      percentage_score c a s =
        (Int.floor (100 * clamp01 (combined_score c a s))).toNat ∧
      percentage_score c a s ≤ 100 := by
  intro c a s
  have hclamp : max 0 (min 100 (combined_score c a s * 100)) =
      100 * clamp01 (combined_score c a s) := by
    set q := combined_score c a s with hq
    rcases le_total q 0 with h | h
    · rcases le_total q 1 with h1 | h1 <;>
      · simp only [clamp01, min_def, max_def]
        split_ifs <;> linarith
    · rcases le_total q 1 with h1 | h1 <;>
      · simp only [clamp01, min_def, max_def]
        split_ifs <;> linarith
  constructor
  · unfold percentage_score
    rw [hclamp]
  · unfold percentage_score
    have hle : max 0 (min 100 (combined_score c a s * 100)) ≤ (100 : ℚ) := by
      apply max_le
      · norm_num
      · exact min_le_left _ _
    have hfloor : Int.floor (max 0 (min 100 (combined_score c a s * 100))) ≤ (100 : ℤ) := by
      have := Int.floor_le_floor hle
      simpa using this
    omega

/-! ### Star rating (`scoring.rs` 372-380) -/

/-- The five-bucket star/feedback lookup of `get_star_rating`.  The Rust
`match` on a `u8` score sends `80..=100` to 5 stars, `65..=79` to 4,
`50..=64` to 3, `30..=49` to 2 and everything else to 1. -/
def get_star_rating (score : Nat) : Nat × String :=
  if 80 ≤ score ∧ score ≤ 100 then (5, "Amazing! Perfect!")
  else if 65 ≤ score ∧ score ≤ 79 then (4, "Great job!")
  else if 50 ≤ score ∧ score ≤ 64 then (3, "Good work!")
  else if 30 ≤ score ∧ score ≤ 49 then (2, "Nice try!")
  else (1, "Keep practicing!")

/-- C3: `get_star_rating` is a total function with exact bucket boundaries:
80-100 ↦ 5 stars, 65-79 ↦ 4, 50-64 ↦ 3, 30-49 ↦ 2, 0-29 ↦ 1, each bucket
paired with its fixed feedback string; in particular 29↦1, 30↦2, 49↦2,
50↦3, 64↦3, 65↦4, 79↦4, 80↦5, 100↦5. -/
theorem get_star_rating_buckets :
    (∀ s : Nat, 80 ≤ s → s ≤ 100 → get_star_rating s = (5, "Amazing! Perfect!")) ∧
    (∀ s : Nat, 65 ≤ s → s ≤ 79 → get_star_rating s = (4, "Great job!")) ∧
    (∀ s : Nat, 50 ≤ s → s ≤ 64 → get_star_rating s = (3, "Good work!")) ∧
    (∀ s : Nat, 30 ≤ s → s ≤ 49 → get_star_rating s = (2, "Nice try!")) ∧
    (∀ s : Nat, s ≤ 29 → get_star_rating s = (1, "Keep practicing!")) ∧
    (get_star_rating 29 = (1, "Keep practicing!") ∧
     get_star_rating 30 = (2, "Nice try!") ∧
     get_star_rating 49 = (2, "Nice try!") ∧
     get_star_rating 50 = (3, "Good work!") ∧
     get_star_rating 64 = (3, "Good work!") ∧
     get_star_rating 65 = (4, "Great job!") ∧
     get_star_rating 79 = (4, "Great job!") ∧
     get_star_rating 80 = (5, "Amazing! Perfect!") ∧
     get_star_rating 100 = (5, "Amazing! Perfect!")) := by
  refine ⟨?_, ?_, ?_, ?_, ?_, by decide⟩ <;>
  · intro s h1
    first
    | · intro h2
        unfold get_star_rating
        split_ifs with a1 a2 a3 a4 <;> first | rfl | omega
    | · unfold get_star_rating
        split_ifs with a1 a2 a3 a4 <;> first | rfl | omega

/-- C3 (witness): the theorem instantiated at the bucket boundary 80. -/
theorem get_star_rating_buckets_w :
    get_star_rating 80 = (5, "Amazing! Perfect!") :=
  get_star_rating_buckets.1 80 (by decide) (by decide)

/-! ### Entry point character handling (`lib.rs` 83-95) -/

/-- The `score_drawing` entry point of `lib.rs`, with the image/font
pipeline (`score_drawing_internal`) abstracted as the parameter
`internal`: the Rust code takes `character.chars().next()`, returns the
error "Empty character string" when there is no first character, and
otherwise feeds only that first Unicode scalar to the internal scorer. -/
def score_drawing {α : Type} (internal : Char → Except String α)
    (character : String) : Except String α :=
  match character.data with
  | [] => Except.error "Empty character string"
  | c :: _ => internal c

/-- C8: `score_drawing` on the empty character string returns an error and
no result; on a non-empty string only the first Unicode scalar is used,
so a multi-character string is silently truncated to its first character
(the result is that of the one-character string) rather than rejected. -/
theorem score_drawing_first_char :
    ∀ (α : Type) (internal : Char → Except String α),
      score_drawing internal (String.mk []) = Except.error "Empty character string" ∧
      (∀ (c : Char) (rest : List Char),
        score_drawing internal (String.mk (c :: rest)) = internal c) ∧
      (∀ (c : Char) (rest : List Char),
        score_drawing internal (String.mk (c :: rest)) =
          score_drawing internal (String.mk [c])) := by
  intro α internal
  exact ⟨rfl, fun c rest => rfl, fun c rest => rfl⟩

/-! ### Zhang-Suen thinning (`image_ops.rs` 144-241)

The Rust loop mutates `current` in place; each sub-iteration first collects
`to_remove` over the frozen state and then clears those indices, so it is
modelled as `toRemove` lists plus `setFalseAll`.  The unbounded `loop` is
modelled with `countTrue binary + 1` passes of fuel, which suffices because
every pass that reports a change strictly decreases the foreground count
(`thinPass_changed_lt`), and a pass that reports no change returns its
input, after which all further passes are identities. -/

/-- The ordered 8-neighbourhood `P2..P9` of `(x, y)`, clockwise from the
top, exactly as `get_neighbors` builds it.  Only called on interior pixels
(`1 ≤ x, y`), where the `Nat` subtractions agree with the Rust indices. -/
def get_neighbors (binary : List Bool) (x y w : Nat) : List Bool :=
  [getB binary ((y - 1) * w + x),
   getB binary ((y - 1) * w + x + 1),
   getB binary (y * w + x + 1),
   getB binary ((y + 1) * w + x + 1),
   getB binary ((y + 1) * w + x),
   getB binary ((y + 1) * w + x - 1),
   getB binary (y * w + x - 1),
   getB binary ((y - 1) * w + x - 1)]

/-- Number of `0 → 1` transitions walking the 8 neighbours circularly,
as in `count_transitions`. -/
def count_transitions (neighbors : List Bool) : Nat :=
  ((List.range 8).filter (fun i =>
    !(neighbors.getD i false) && neighbors.getD ((i + 1) % 8) false)).length

/-- Number of foreground neighbours, as in `count_neighbors`. -/
def count_neighbors (neighbors : List Bool) : Nat :=
  (neighbors.filter (fun b => b)).length

/-- Removal condition of sub-iteration 1 (`should_remove_subiteration1`):
`2 ≤ n ≤ 6`, `t = 1`, `¬(P2 ∧ P4 ∧ P6)`, `¬(P4 ∧ P6 ∧ P8)`. -/
def should_remove_subiteration1 (binary : List Bool) (x y w : Nat) : Bool :=
  let neighbors := get_neighbors binary x y w
  let n := count_neighbors neighbors
  let t := count_transitions neighbors
  decide (2 ≤ n) && decide (n ≤ 6) && decide (t = 1) &&
  !(neighbors.getD 0 false && neighbors.getD 2 false && neighbors.getD 4 false) &&
  !(neighbors.getD 2 false && neighbors.getD 4 false && neighbors.getD 6 false)

/-- Removal condition of sub-iteration 2 (`should_remove_subiteration2`):
`2 ≤ n ≤ 6`, `t = 1`, `¬(P2 ∧ P4 ∧ P8)`, `¬(P2 ∧ P6 ∧ P8)`. -/
def should_remove_subiteration2 (binary : List Bool) (x y w : Nat) : Bool :=
  let neighbors := get_neighbors binary x y w
  let n := count_neighbors neighbors
  let t := count_transitions neighbors
  decide (2 ≤ n) && decide (n ≤ 6) && decide (t = 1) &&
  !(neighbors.getD 0 false && neighbors.getD 2 false && neighbors.getD 6 false) &&
  !(neighbors.getD 0 false && neighbors.getD 4 false && neighbors.getD 6 false)

/-- Row-major interior scan order `for y in 1..h-1 { for x in 1..w-1 }`,
as pairs `(x, y)`. -/
def interiorScan (w h : Nat) : List (Nat × Nat) :=
  (List.range' 1 (h - 2)).flatMap (fun y =>
    (List.range' 1 (w - 2)).map (fun x => (x, y)))

/-- Indices collected by the sub-iteration-1 scan of `skeletonize`. -/
def toRemove1 (m : List Bool) (w h : Nat) : List Nat :=
  (interiorScan w h).filterMap (fun p =>
    if getB m (p.2 * w + p.1) && should_remove_subiteration1 m p.1 p.2 w
    then some (p.2 * w + p.1) else none)

/-- Indices collected by the sub-iteration-2 scan of `skeletonize`. -/
def toRemove2 (m : List Bool) (w h : Nat) : List Nat :=
  (interiorScan w h).filterMap (fun p =>
    if getB m (p.2 * w + p.1) && should_remove_subiteration2 m p.1 p.2 w
    then some (p.2 * w + p.1) else none)

/-- Clear every index of `l` in the mask, as the `for idx in &to_remove`
loops do. -/
def setFalseAll (m : List Bool) (l : List Nat) : List Bool :=
  l.foldl (fun acc i => acc.set i false) m

/-- One full pass of the Zhang-Suen loop (both sub-iterations); the flag
is the `changed` variable, set exactly when some index was removed. -/
def thinPass (m : List Bool) (w h : Nat) : List Bool × Bool :=
  let r1 := toRemove1 m w h
  let m1 := setFalseAll m r1
  let r2 := toRemove2 m1 w h
  let m2 := setFalseAll m1 r2
  (m2, !(r1.isEmpty && r2.isEmpty))

/-- The `loop` of `skeletonize`, with explicit fuel. -/
def skelLoop (w h : Nat) : Nat → List Bool → List Bool
  | 0, m => m
  | fuel + 1, m =>
    let p := thinPass m w h
    if p.2 then skelLoop w h fuel p.1 else p.1

/-- Zhang-Suen thinning (`skeletonize`): iterate passes until no pixel is
removed.  `countTrue binary + 1` passes of fuel always reach that fixed
point (`skeletonize_terminates`). -/
def skeletonize (binary : List Bool) (w h : Nat) : List Bool :=
  skelLoop w h (countTrue binary + 1) binary

/-! #### Counting lemmas -/

theorem countTrue_cons (b : Bool) (t : List Bool) :
    countTrue (b :: t) = (if b then 1 else 0) + countTrue t := by
  cases b
  · simp [countTrue, List.filter_cons]
  · simp [countTrue, List.filter_cons, Nat.add_comm]

theorem getB_nil (i : Nat) : getB [] i = false := by
  simp [getB]

theorem getB_cons_zero (b : Bool) (t : List Bool) : getB (b :: t) 0 = b := rfl

theorem getB_cons_succ (b : Bool) (t : List Bool) (i : Nat) :
    getB (b :: t) (i + 1) = getB t i := rfl

theorem countTrue_set_le (m : List Bool) :
    ∀ j : Nat, countTrue (m.set j false) ≤ countTrue m := by
  induction m with
  | nil => intro j; simp [List.set]
  | cons b t ih =>
    intro j
    cases j with
    | zero =>
      show countTrue (false :: t) ≤ countTrue (b :: t)
      rw [countTrue_cons, countTrue_cons]
      cases b <;> simp
    | succ j =>
      show countTrue (b :: t.set j false) ≤ countTrue (b :: t)
      rw [countTrue_cons, countTrue_cons]
      have := ih j
      omega

theorem countTrue_set_lt (m : List Bool) :
    ∀ j : Nat, getB m j = true → countTrue (m.set j false) < countTrue m := by
  induction m with
  | nil => intro j hj; rw [getB_nil] at hj; exact absurd hj (by simp)
  | cons b t ih =>
    intro j hj
    cases j with
    | zero =>
      rw [getB_cons_zero] at hj
      subst hj
      show countTrue (false :: t) < countTrue (true :: t)
      rw [countTrue_cons, countTrue_cons]
      simp
    | succ j =>
      rw [getB_cons_succ] at hj
      show countTrue (b :: t.set j false) < countTrue (b :: t)
      rw [countTrue_cons, countTrue_cons]
      have := ih j hj
      omega

theorem getB_set_true (m : List Bool) :
    ∀ (j i : Nat), getB (m.set j false) i = true → getB m i = true := by
  induction m with
  | nil => intro j i h; simpa [List.set] using h
  | cons b t ih =>
    intro j i h
    cases j with
    | zero =>
      cases i with
      | zero => exact absurd h (by simp [List.set, getB_cons_zero])
      | succ i => simpa [List.set, getB_cons_succ] using h
    | succ j =>
      cases i with
      | zero => simpa [List.set, getB_cons_zero] using h
      | succ i =>
        rw [getB_cons_succ]
        exact ih j i (by simpa [List.set, getB_cons_succ] using h)

theorem setFalseAll_nil (m : List Bool) : setFalseAll m [] = m := rfl

theorem setFalseAll_cons (m : List Bool) (i : Nat) (l : List Nat) :
    setFalseAll m (i :: l) = setFalseAll (m.set i false) l := rfl

theorem countTrue_setFalseAll_le (l : List Nat) :
    ∀ m : List Bool, countTrue (setFalseAll m l) ≤ countTrue m := by
  induction l with
  | nil => intro m; rw [setFalseAll_nil]
  | cons i l ih =>
    intro m
    rw [setFalseAll_cons]
    exact le_trans (ih _) (countTrue_set_le m i)

theorem countTrue_setFalseAll_lt (m : List Bool) (i : Nat) (l : List Nat)
    (h : getB m i = true) :
    countTrue (setFalseAll m (i :: l)) < countTrue m := by
  rw [setFalseAll_cons]
  exact lt_of_le_of_lt (countTrue_setFalseAll_le l _) (countTrue_set_lt m i h)

theorem getB_setFalseAll (l : List Nat) :
    ∀ (m : List Bool) (i : Nat), getB (setFalseAll m l) i = true → getB m i = true := by
  induction l with
  | nil => intro m i h; rwa [setFalseAll_nil] at h
  | cons j l ih =>
    intro m i h
    rw [setFalseAll_cons] at h
    exact getB_set_true m j i (ih _ i h)

theorem getB_of_mem_toRemove1 (m : List Bool) (w h i : Nat)
    (hmem : i ∈ toRemove1 m w h) : getB m i = true := by
  simp only [toRemove1, List.mem_filterMap] at hmem
  obtain ⟨p, _, hp⟩ := hmem
  by_cases hc : getB m (p.2 * w + p.1) && should_remove_subiteration1 m p.1 p.2 w
  · rw [if_pos hc] at hp
    obtain ⟨h1, _⟩ := Bool.and_eq_true_iff.mp hc
    obtain rfl : p.2 * w + p.1 = i := by injection hp
    exact h1
  · rw [if_neg hc] at hp
    exact absurd hp (by simp)

theorem getB_of_mem_toRemove2 (m : List Bool) (w h i : Nat)
    (hmem : i ∈ toRemove2 m w h) : getB m i = true := by
  simp only [toRemove2, List.mem_filterMap] at hmem
  obtain ⟨p, _, hp⟩ := hmem
  by_cases hc : getB m (p.2 * w + p.1) && should_remove_subiteration2 m p.1 p.2 w
  · rw [if_pos hc] at hp
    obtain ⟨h1, _⟩ := Bool.and_eq_true_iff.mp hc
    obtain rfl : p.2 * w + p.1 = i := by injection hp
    exact h1
  · rw [if_neg hc] at hp
    exact absurd hp (by simp)

/-! #### Pass lemmas -/

theorem thinPass_fst (m : List Bool) (w h : Nat) :
    (thinPass m w h).1 =
      setFalseAll (setFalseAll m (toRemove1 m w h))
        (toRemove2 (setFalseAll m (toRemove1 m w h)) w h) := rfl

theorem thinPass_snd (m : List Bool) (w h : Nat) :
    (thinPass m w h).2 =
      !((toRemove1 m w h).isEmpty &&
         (toRemove2 (setFalseAll m (toRemove1 m w h)) w h).isEmpty) := rfl

theorem thinPass_le (m : List Bool) (w h : Nat) :
    countTrue (thinPass m w h).1 ≤ countTrue m := by
  rw [thinPass_fst]
  exact le_trans (countTrue_setFalseAll_le _ _) (countTrue_setFalseAll_le _ _)

theorem thinPass_subset (m : List Bool) (w h i : Nat)
    (hi : getB (thinPass m w h).1 i = true) : getB m i = true := by
  rw [thinPass_fst] at hi
  exact getB_setFalseAll _ m i (getB_setFalseAll _ _ i hi)

theorem thinPass_changed_lt (m : List Bool) (w h : Nat)
    (hch : (thinPass m w h).2 = true) :
    countTrue (thinPass m w h).1 < countTrue m := by
  rw [thinPass_snd] at hch
  rw [thinPass_fst]
  simp only [Bool.not_eq_true', Bool.and_eq_false_iff, List.isEmpty_eq_false,
    List.isEmpty_iff] at hch
  cases hr1 : toRemove1 m w h with
  | cons a l =>
    have ha : getB m a = true := getB_of_mem_toRemove1 m w h a (hr1 ▸ List.mem_cons_self a l)
    calc countTrue (setFalseAll (setFalseAll m (a :: l))
            (toRemove2 (setFalseAll m (a :: l)) w h))
        ≤ countTrue (setFalseAll m (a :: l)) := countTrue_setFalseAll_le _ _
      _ < countTrue m := countTrue_setFalseAll_lt m a l ha
  | nil =>
    simp only [setFalseAll_nil]
    rw [hr1] at hch
    simp only [setFalseAll_nil] at hch
    rcases hch with hch | hch
    · exact absurd rfl hch
    · cases hr2 : toRemove2 m w h with
      | nil => exact absurd hr2 hch
      | cons a l =>
        have ha : getB m a = true := getB_of_mem_toRemove2 m w h a (hr2 ▸ List.mem_cons_self a l)
        exact countTrue_setFalseAll_lt m a l ha

theorem thinPass_unchanged (m : List Bool) (w h : Nat)
    (hch : (thinPass m w h).2 = false) : (thinPass m w h).1 = m := by
  rw [thinPass_snd] at hch
  rw [thinPass_fst]
  simp only [Bool.not_eq_false', Bool.and_eq_true, List.isEmpty_iff] at hch
  obtain ⟨h1, h2⟩ := hch
  simp only [h1, setFalseAll_nil] at h2 ⊢
  rw [h2, setFalseAll_nil]

theorem skelLoop_subset (w h : Nat) :
    ∀ (fuel : Nat) (m : List Bool) (i : Nat),
      getB (skelLoop w h fuel m) i = true → getB m i = true := by
  intro fuel
  induction fuel with
  | zero => intro m i hi; exact hi
  | succ fuel ih =>
    intro m i hi
    unfold skelLoop at hi
    by_cases hp : (thinPass m w h).2
    · rw [if_pos hp] at hi
      exact thinPass_subset m w h i (ih _ i hi)
    · rw [if_neg hp] at hi
      exact thinPass_subset m w h i hi

theorem skelLoop_le (w h : Nat) :
    ∀ (fuel : Nat) (m : List Bool),
      countTrue (skelLoop w h fuel m) ≤ countTrue m := by
  intro fuel
  induction fuel with
  | zero => intro m; exact le_refl _
  | succ fuel ih =>
    intro m
    unfold skelLoop
    by_cases hp : (thinPass m w h).2
    · rw [if_pos hp]
      exact le_trans (ih _) (thinPass_le m w h)
    · rw [if_neg hp]
      exact thinPass_le m w h

theorem skelLoop_fix (w h : Nat) :
    ∀ (fuel : Nat) (m : List Bool), countTrue m < fuel →
      (thinPass (skelLoop w h fuel m) w h).2 = false := by
  intro fuel
  induction fuel with
  | zero => intro m hm; omega
  | succ fuel ih =>
    intro m hm
    unfold skelLoop
    by_cases hp : (thinPass m w h).2
    · rw [if_pos hp]
      have hlt := thinPass_changed_lt m w h hp
      exact ih _ (by omega)
    · rw [if_neg hp]
      rw [thinPass_unchanged m w h (by simpa using hp)]
      simpa using hp

theorem getB_eq_false_of_countTrue_zero (m : List Bool) (hm : countTrue m = 0) :
    ∀ i, getB m i = false := by
  intro i
  induction m generalizing i with
  | nil => exact getB_nil i
  | cons b t ih =>
    rw [countTrue_cons] at hm
    cases b with
    | true => simp at hm
    | false =>
      simp at hm
      cases i with
      | zero => rfl
      | succ i =>
        rw [getB_cons_succ]
        exact ih hm i

/-- C4: each full pass of `skeletonize` either removes at least one
foreground pixel, strictly decreasing the foreground count, or removes
none, in which case the loop exits at the fixed point with the mask
unchanged; the loop always reaches such a fixed point (termination), and
an all-background input is returned unchanged immediately. -/
theorem skeletonize_terminates :
    ∀ (m : List Bool) (w h : Nat),
      ((thinPass m w h).2 = true → countTrue (thinPass m w h).1 < countTrue m) ∧
      ((thinPass m w h).2 = false → skeletonize m w h = m) ∧
      (countTrue m = 0 → skeletonize m w h = m) ∧
      (thinPass (skeletonize m w h) w h).2 = false := by
  intro m w h
  have hexit : (thinPass m w h).2 = false → skeletonize m w h = m := by
    intro hch
    unfold skeletonize skelLoop
    rw [if_neg (by simp [hch])]
    exact thinPass_unchanged m w h hch
  refine ⟨thinPass_changed_lt m w h, hexit, ?_, ?_⟩
  · intro hm
    apply hexit
    have hr1 : toRemove1 m w h = [] := by
      apply List.eq_nil_iff_forall_not_mem.mpr
      intro a ha
      have := getB_of_mem_toRemove1 m w h a ha
      rw [getB_eq_false_of_countTrue_zero m hm a] at this
      exact absurd this (by simp)
    have hm1 : setFalseAll m (toRemove1 m w h) = m := by rw [hr1]; rfl
    have hr2 : toRemove2 (setFalseAll m (toRemove1 m w h)) w h = [] := by
      rw [hm1]
      apply List.eq_nil_iff_forall_not_mem.mpr
      intro a ha
      have := getB_of_mem_toRemove2 m w h a ha
      rw [getB_eq_false_of_countTrue_zero m hm a] at this
      exact absurd this (by simp)
    rw [thinPass_snd]
    simp only [hr1, setFalseAll_nil]
    rw [hm1] at hr2
    simp [hr2]
  · unfold skeletonize
    exact skelLoop_fix w h (countTrue m + 1) m (by omega)

/-- C4 (witness): the all-background 3×3 mask has foreground count 0 and
`skeletonize` returns it unchanged. -/
theorem skeletonize_terminates_w :
    skeletonize (List.replicate 9 false) 3 3 = List.replicate 9 false :=
  (skeletonize_terminates (List.replicate 9 false) 3 3).2.2.1 (by decide)

/-- C10: `skeletonize` only ever clears pixels: every foreground pixel of
the output was foreground in the input, and the foreground count never
increases. -/
theorem skeletonize_subset :
    ∀ (m : List Bool) (w h : Nat),
      (∀ i, getB (skeletonize m w h) i = true → getB m i = true) ∧
      countTrue (skeletonize m w h) ≤ countTrue m := by
  intro m w h
  exact ⟨fun i hi => skelLoop_subset w h _ m i hi, skelLoop_le w h _ m⟩

/-- Mask with a single centre pixel on a 3×3 grid, used as concrete input. -/
def centreMask : List Bool :=
  [false, false, false, false, true, false, false, false, false]

/-- C10 (witness): on the 3×3 single-pixel mask the skeleton keeps the
centre pixel, and the theorem recovers that it was set in the input. -/
theorem skeletonize_subset_w :
    getB (skeletonize centreMask 3 3) 4 = true ∧ getB centreMask 4 = true :=
  ⟨by decide, (skeletonize_subset centreMask 3 3).1 4 (by decide)⟩

/-! #### Sub-iteration-1 marking condition (C5) -/

theorem mem_interiorScan (w h x y : Nat) :
    (x, y) ∈ interiorScan w h ↔ 1 ≤ x ∧ x < w - 1 ∧ 1 ≤ y ∧ y < h - 1 := by
  simp only [interiorScan, List.mem_flatMap, List.mem_map, List.mem_range'_1,
    Prod.mk.injEq]
  constructor
  · rintro ⟨y', hy', x', hx', rfl, rfl⟩
    omega
  · rintro ⟨hx1, hx2, hy1, hy2⟩
    refine ⟨y, ?_, x, ?_, rfl, rfl⟩ <;> omega

theorem rowMajor_inj (w x x' y y' : Nat) (hx : x < w) (hx' : x' < w)
    (heq : y * w + x = y' * w + x') : x = x' ∧ y = y' := by
  have hw : 0 < w := Nat.lt_of_le_of_lt (Nat.zero_le x) hx
  have a1 : (y * w + x) % w = x := by
    rw [Nat.add_comm, Nat.add_mul_mod_self_right, Nat.mod_eq_of_lt hx]
  have a2 : (y' * w + x') % w = x' := by
    rw [Nat.add_comm, Nat.add_mul_mod_self_right, Nat.mod_eq_of_lt hx']
  rw [heq, a2] at a1
  subst a1
  refine ⟨rfl, ?_⟩
  have hmul : y * w = y' * w := by omega
  exact Nat.eq_of_mul_eq_mul_right hw hmul

theorem mem_toRemove1_iff (m : List Bool) (w h x y : Nat)
    (hx1 : 1 ≤ x) (hx2 : x < w - 1) (hy1 : 1 ≤ y) (hy2 : y < h - 1) :
    (y * w + x) ∈ toRemove1 m w h ↔
      (getB m (y * w + x) = true ∧ should_remove_subiteration1 m x y w = true) := by
  simp only [toRemove1, List.mem_filterMap]
  constructor
  · rintro ⟨⟨px, py⟩, hmem, hp⟩
    by_cases hc : getB m (py * w + px) && should_remove_subiteration1 m px py w
    · rw [if_pos hc] at hp
      have heq : py * w + px = y * w + x := by injection hp
      rw [mem_interiorScan] at hmem
      obtain ⟨rfl, rfl⟩ := rowMajor_inj w px x py y (by omega) (by omega) heq
      exact Bool.and_eq_true_iff.mp hc
    · rw [if_neg hc] at hp
      exact absurd hp (by simp)
  · rintro ⟨h1, h2⟩
    refine ⟨(x, y), ?_, ?_⟩
    · rw [mem_interiorScan]
      exact ⟨hx1, hx2, hy1, hy2⟩
    · simp [h1, h2]

theorem subiter1_flag_iff : ∀ (a b c d e f g j : Bool),
    ((decide (2 ≤ count_neighbors [a, b, c, d, e, f, g, j]) &&
      decide (count_neighbors [a, b, c, d, e, f, g, j] ≤ 6) &&
      decide (count_transitions [a, b, c, d, e, f, g, j] = 1) &&
      !(a && c && e) && !(c && e && g)) = true) ↔
    (2 ≤ count_neighbors [a, b, c, d, e, f, g, j] ∧
     count_neighbors [a, b, c, d, e, f, g, j] ≤ 6 ∧
     count_transitions [a, b, c, d, e, f, g, j] = 1 ∧
     ¬(a = true ∧ c = true ∧ e = true) ∧
     ¬(c = true ∧ e = true ∧ g = true)) := by
  decide

/-- C5: an interior foreground pixel is marked for removal by
sub-iteration 1 exactly when `2 ≤ neighbor_count ≤ 6`,
`transition_count = 1`, `¬(N1 ∧ N3 ∧ N5)` and `¬(N3 ∧ N5 ∧ N7)`,
where (clockwise from the top) `N1` is the top, `N3` the right, `N5` the
bottom and `N7` the left neighbour. -/
theorem subiteration1_marks :
    ∀ (m : List Bool) (w h x y : Nat),
      1 ≤ x → x < w - 1 → 1 ≤ y → y < h - 1 →
      getB m (y * w + x) = true →
      ((y * w + x) ∈ toRemove1 m w h ↔
        (2 ≤ count_neighbors (get_neighbors m x y w) ∧
         count_neighbors (get_neighbors m x y w) ≤ 6 ∧
         count_transitions (get_neighbors m x y w) = 1 ∧
         ¬(getB m ((y - 1) * w + x) = true ∧ getB m (y * w + x + 1) = true ∧
           getB m ((y + 1) * w + x) = true) ∧
         ¬(getB m (y * w + x + 1) = true ∧ getB m ((y + 1) * w + x) = true ∧
           getB m (y * w + x - 1) = true))) := by
  intro m w h x y hx1 hx2 hy1 hy2 hfg
  rw [mem_toRemove1_iff m w h x y hx1 hx2 hy1 hy2]
  rw [and_iff_right hfg]
  simp only [should_remove_subiteration1]
  have hne : get_neighbors m x y w =
      [getB m ((y - 1) * w + x), getB m ((y - 1) * w + x + 1),
       getB m (y * w + x + 1), getB m ((y + 1) * w + x + 1),
       getB m ((y + 1) * w + x), getB m ((y + 1) * w + x - 1),
       getB m (y * w + x - 1), getB m ((y - 1) * w + x - 1)] := rfl
  rw [hne]
  simp only [List.getD_cons_zero, List.getD_cons_succ]
  exact subiter1_flag_iff _ _ _ _ _ _ _ _

/-- Mask on a 5×5 grid: foreground at (2,2) with a two-pixel tail below
left, so that (2,2) satisfies the sub-iteration-1 removal condition. -/
def spurMask : List Bool :=
  [false, false, false, false, false,
   false, false, false, false, false,
   false, false, true, false, false,
   false, true, true, false, false,
   false, false, false, false, false]

/-- C5 (witness): at pixel (2,2) of `spurMask` the removal condition
holds, so the index is collected by the sub-iteration-1 scan. -/
theorem subiteration1_marks_w : (2 * 5 + 2) ∈ toRemove1 spurMask 5 5 :=
  (subiteration1_marks spurMask 5 5 2 2 (by decide) (by decide) (by decide)
    (by decide) (by decide)).mpr (by decide)

/-! ### Endpoint detection and branch pruning (`image_ops.rs` 243-275, 362-388) -/

/-- `find_endpoints`: interior foreground pixels with exactly one of their
8 neighbours foreground, returned as `(x, y)` in row-major scan order.
The Rust `dy, dx` double loop visits the same 8 cells as `get_neighbors`
and only their count is used. -/
def find_endpoints (skeleton : List Bool) (w h : Nat) : List (Nat × Nat) :=
  (interiorScan w h).filterMap (fun p =>
    if getB skeleton (p.2 * w + p.1) = true ∧
       count_neighbors (get_neighbors skeleton p.1 p.2 w) = 1
    then some (p.1, p.2) else none)

/-- The removal budget of `prune_branches`:
`(initial_pixels as f32 * max_removal_percent) as u32` (truncation toward
zero, saturating at 0 for negative values). -/
def maxRemovalOf (initial : Nat) (max_removal_percent : ℚ) : Nat :=
  (Int.floor ((initial : ℚ) * max_removal_percent)).toNat

/-- The `for _ in 0..prune_length` loop of `prune_branches`, carrying
`total_removed`; each round clears the first `max_removal - total_removed`
endpoints of the current skeleton (Rust `take` before mapping to indices). -/
def pruneLoop (w h maxRemoval : Nat) : Nat → List Bool → Nat → List Bool
  | 0, skel, _ => skel
  | n + 1, skel, total =>
    if maxRemoval ≤ total then skel
    else if (find_endpoints skel w h).isEmpty then skel
    else
      pruneLoop w h maxRemoval n
        (setFalseAll skel (((find_endpoints skel w h).take (maxRemoval - total)).map
          (fun p => p.2 * w + p.1)))
        (total + (((find_endpoints skel w h).take (maxRemoval - total)).map
          (fun p => p.2 * w + p.1)).length)

/-- `prune_branches`: up to `prune_length` rounds of endpoint removal with
the cumulative budget `maxRemovalOf`. -/
def prune_branches (skeleton : List Bool) (w h prune_length : Nat)
    (max_removal_percent : ℚ) : List Bool :=
  pruneLoop w h (maxRemovalOf (countTrue skeleton) max_removal_percent)
    prune_length skeleton 0

theorem pruneLoop_zero (w h maxR : Nat) (skel : List Bool) (total : Nat) :
    pruneLoop w h maxR 0 skel total = skel := rfl

theorem pruneLoop_succ (w h maxR n : Nat) (skel : List Bool) (total : Nat) :
    pruneLoop w h maxR (n + 1) skel total =
      if maxR ≤ total then skel
      else if (find_endpoints skel w h).isEmpty then skel
      else
        pruneLoop w h maxR n
          (setFalseAll skel (((find_endpoints skel w h).take (maxR - total)).map
            (fun p => p.2 * w + p.1)))
          (total + (((find_endpoints skel w h).take (maxR - total)).map
            (fun p => p.2 * w + p.1)).length) := rfl

theorem countTrue_set_ge (m : List Bool) :
    ∀ j : Nat, countTrue m ≤ countTrue (m.set j false) + 1 := by
  induction m with
  | nil => intro j; simp [List.set]
  | cons b t ih =>
    intro j
    cases j with
    | zero =>
      show countTrue (b :: t) ≤ countTrue (false :: t) + 1
      rw [countTrue_cons, countTrue_cons]
      cases b
      · simp
      · simp [Nat.add_comm]
    | succ j =>
      show countTrue (b :: t) ≤ countTrue (b :: t.set j false) + 1
      rw [countTrue_cons, countTrue_cons]
      have := ih j
      omega

theorem countTrue_setFalseAll_ge (l : List Nat) :
    ∀ m : List Bool, countTrue m ≤ countTrue (setFalseAll m l) + l.length := by
  induction l with
  | nil => intro m; simp [setFalseAll_nil]
  | cons i l ih =>
    intro m
    rw [setFalseAll_cons]
    have h1 := countTrue_set_ge m i
    have h2 := ih (m.set i false)
    simp only [List.length_cons]
    omega

theorem pruneLoop_le (w h maxR : Nat) :
    ∀ (n : Nat) (skel : List Bool) (total : Nat),
      countTrue (pruneLoop w h maxR n skel total) ≤ countTrue skel := by
  intro n
  induction n with
  | zero => intro skel total; exact le_refl _
  | succ n ih =>
    intro skel total
    rw [pruneLoop_succ]
    by_cases h1 : maxR ≤ total
    · rw [if_pos h1]
    · rw [if_neg h1]
      by_cases h2 : (find_endpoints skel w h).isEmpty
      · rw [if_pos h2]
      · rw [if_neg h2]
        exact le_trans (ih _ _) (countTrue_setFalseAll_le _ _)

theorem pruneLoop_bound (w h maxR : Nat) :
    ∀ (n : Nat) (skel : List Bool) (total : Nat), total ≤ maxR →
      countTrue skel ≤ countTrue (pruneLoop w h maxR n skel total) + (maxR - total) := by
  intro n
  induction n with
  | zero => intro skel total htot; rw [pruneLoop_zero]; omega
  | succ n ih =>
    intro skel total htot
    rw [pruneLoop_succ]
    by_cases h1 : maxR ≤ total
    · rw [if_pos h1]; omega
    · rw [if_neg h1]
      by_cases h2 : (find_endpoints skel w h).isEmpty
      · rw [if_pos h2]; omega
      · rw [if_neg h2]
        set toRem := ((find_endpoints skel w h).take (maxR - total)).map
          (fun p => p.2 * w + p.1) with hrem
        have hk : toRem.length ≤ maxR - total := by
          rw [hrem, List.length_map, List.length_take]
          omega
        have hge := countTrue_setFalseAll_ge toRem skel
        have hih := ih (setFalseAll skel toRem) (total + toRem.length) (by omega)
        omega

theorem floor_toNat_le (q : ℚ) (hq : 0 ≤ q) : ((Int.floor q).toNat : ℚ) ≤ q := by
  have h1 : ((Int.floor q).toNat : ℤ) = Int.floor q :=
    Int.toNat_of_nonneg (Int.floor_nonneg.mpr hq)
  have h2 : ((Int.floor q).toNat : ℚ) = ((Int.floor q : ℤ) : ℚ) := by
    exact_mod_cast h1
  rw [h2]
  exact Int.floor_le q

/-- C7: `prune_branches` never increases the pixel count, removes at most
`max_removal_fraction × initial_pixel_count` pixels in total, and a round
whose endpoint set would overflow the budget removes exactly the first
`budget − removed_so_far` endpoints in row-major scan order, landing
exactly on the budget. -/
theorem prune_branches_budget :
    ∀ (skeleton : List Bool) (w h prune_length : Nat) (frac : ℚ), 0 ≤ frac →
      countTrue (prune_branches skeleton w h prune_length frac) ≤ countTrue skeleton ∧
      ((countTrue skeleton -
          countTrue (prune_branches skeleton w h prune_length frac) : ℚ)) ≤
        frac * countTrue skeleton ∧
      (∀ (n total : Nat) (skel : List Bool),
        total < maxRemovalOf (countTrue skeleton) frac →
        (find_endpoints skel w h).isEmpty = false →
        maxRemovalOf (countTrue skeleton) frac - total ≤
          (find_endpoints skel w h).length →
        total + (((find_endpoints skel w h).take
            (maxRemovalOf (countTrue skeleton) frac - total)).map
            (fun p => p.2 * w + p.1)).length =
          maxRemovalOf (countTrue skeleton) frac ∧
        pruneLoop w h (maxRemovalOf (countTrue skeleton) frac) (n + 1) skel total =
          pruneLoop w h (maxRemovalOf (countTrue skeleton) frac) n
            (setFalseAll skel (((find_endpoints skel w h).take
              (maxRemovalOf (countTrue skeleton) frac - total)).map
              (fun p => p.2 * w + p.1)))
            (maxRemovalOf (countTrue skeleton) frac)) := by
  intro skeleton w h prune_length frac hfrac
  set maxR := maxRemovalOf (countTrue skeleton) frac with hmr
  have hle : countTrue (prune_branches skeleton w h prune_length frac) ≤
      countTrue skeleton := pruneLoop_le w h maxR prune_length skeleton 0
  refine ⟨hle, ?_, ?_⟩
  · have hb := pruneLoop_bound w h maxR prune_length skeleton 0 (Nat.zero_le _)
    have hsub : countTrue skeleton -
        countTrue (prune_branches skeleton w h prune_length frac) ≤ maxR := by
      unfold prune_branches
      rw [← hmr]
      omega
    have hcast : (countTrue skeleton : ℚ) -
        countTrue (prune_branches skeleton w h prune_length frac) ≤ (maxR : ℚ) := by
      have h4 : ((countTrue skeleton -
          countTrue (prune_branches skeleton w h prune_length frac) : Nat) : ℚ) ≤
          (maxR : ℚ) := by exact_mod_cast hsub
      rw [Nat.cast_sub hle] at h4
      exact h4
    have hmax : (maxR : ℚ) ≤ frac * countTrue skeleton := by
      rw [hmr]
      unfold maxRemovalOf
      calc ((Int.floor ((countTrue skeleton : ℚ) * frac)).toNat : ℚ)
          ≤ (countTrue skeleton : ℚ) * frac :=
            floor_toNat_le _ (mul_nonneg (by positivity) hfrac)
        _ = frac * countTrue skeleton := mul_comm _ _
    exact le_trans hcast hmax
  · intro n total skel h1 h2 h3
    have hlen : (((find_endpoints skel w h).take (maxR - total)).map
        (fun p => p.2 * w + p.1)).length = maxR - total := by
      rw [List.length_map, List.length_take]
      omega
    refine ⟨by omega, ?_⟩
    rw [pruneLoop_succ, if_neg (by omega), if_neg (by simp [h2])]
    rw [hlen]
    congr 1
    omega

/-- T-shaped 7×7 skeleton from the Rust tests: a horizontal bar with a
two-pixel vertical spur. -/
def tShape : List Bool :=
  [false, false, false, false, false, false, false,
   false, false, false, true, false, false, false,
   false, false, false, true, false, false, false,
   false, true, true, true, true, true, false,
   false, false, false, false, false, false, false,
   false, false, false, false, false, false, false,
   false, false, false, false, false, false, false]

/-- C7 (witness): pruning the T shape with fraction 1/2 does not increase
the pixel count. -/
theorem prune_branches_budget_w :
    countTrue (prune_branches tShape 7 7 2 (1/2)) ≤ countTrue tShape :=
  (prune_branches_budget tShape 7 7 2 (1/2) (by norm_num)).1

/-! ### Gap bridging (`image_ops.rs` 277-360)

The endpoint search of `bridge_gaps` compares `f32` Euclidean distances
`sqrt(dx² + dy²) < best_dist`, starting from `best_dist = max_gap + 1.0`;
all compared values are square roots of integers (or the integer
`max_gap + 1` itself), and `sqrt` is strictly monotone, so the state is
carried as the squared integer distance with initial bound `(g+1)²`. -/

/-- The offsets `-g ..= g` of the Rust search loops, in order. -/
def offs (g : Nat) : List Int :=
  (List.range (2 * g + 1)).map (fun (i : Nat) => (i : Int) - (g : Int))

/-- The `(dy, dx)` pairs of the nested search loops, in scan order. -/
def windowOffsets (g : Nat) : List (Int × Int) :=
  (offs g).flatMap (fun dy => (offs g).map (fun dx => (dy, dx)))

/-- One step of the nearest-target search in `bridge_gaps`: skip the
centre, skip out-of-bounds, skip background, skip the immediate 3×3
neighbourhood, then keep the target iff its squared distance beats the
best so far. -/
def btStep (skel : List Bool) (w h ex ey : Nat)
    (st : Option (Nat × Nat) × Nat) (p : Int × Int) : Option (Nat × Nat) × Nat :=
  if p.1 = 0 ∧ p.2 = 0 then st
  else if (ey : Int) + p.1 < 0 ∨ (h : Int) ≤ (ey : Int) + p.1 ∨
          (ex : Int) + p.2 < 0 ∨ (w : Int) ≤ (ex : Int) + p.2 then st
  else if getB skel (((ey : Int) + p.1).toNat * w + ((ex : Int) + p.2).toNat) = false
  then st
  else if p.1.natAbs ≤ 1 ∧ p.2.natAbs ≤ 1 then st
  else if (p.2 * p.2 + p.1 * p.1).toNat < st.2 then
    (some ((((ex : Int) + p.2).toNat), (((ey : Int) + p.1).toNat)),
     (p.2 * p.2 + p.1 * p.1).toNat)
  else st

/-- The nearest-target search of `bridge_gaps` for one endpoint
`(ex, ey)`: fold the step over the window in scan order. -/
def bestTarget (skel : List Bool) (w h ex ey g : Nat) : Option (Nat × Nat) × Nat :=
  (windowOffsets g).foldl (btStep skel w h ex ey) (none, (g + 1) * (g + 1))

/-- Bresenham loop of `draw_line`.  The fuel `|x1−x0| + |y1−y0| + 1`
always suffices: every iteration that does not hit `(x1, y1)` advances at
least one coordinate toward it. -/
def drawLoop (w : Nat) (x1 y1 sx sy dx dy : Int) :
    Nat → List Bool → Int → Int → Int → List Bool
  | 0, img, _, _, _ => img
  | fuel + 1, img, x, y, err =>
    let img1 :=
      if 0 ≤ x ∧ 0 ≤ y ∧ y.toNat * w + x.toNat < img.length
      then img.set (y.toNat * w + x.toNat) true else img
    if x = x1 ∧ y = y1 then img1
    else
      let e2 := 2 * err
      let x2 := if dy ≤ e2 then x + sx else x
      let errx := if dy ≤ e2 then err + dy else err
      let y2 := if e2 ≤ dx then y + sy else y
      let erry := if e2 ≤ dx then errx + dx else errx
      drawLoop w x1 y1 sx sy dx dy fuel img1 x2 y2 erry

/-- Bresenham's line (`draw_line`): `dx = |x1−x0|`, `dy = −|y1−y0|`,
steps `sx, sy` toward the target, error term `err = dx + dy`. -/
def draw_line (image : List Bool) (w : Nat) (x0 y0 x1 y1 : Nat) : List Bool :=
  drawLoop w (x1 : Int) (y1 : Int)
    (if x0 < x1 then 1 else -1) (if y0 < y1 then 1 else -1)
    ((((x1 : Int) - (x0 : Int)).natAbs : Int))
    (-((((y1 : Int) - (y0 : Int)).natAbs : Int)))
    (((x1 : Int) - (x0 : Int)).natAbs + (((y1 : Int) - (y0 : Int)).natAbs) + 1)
    image (x0 : Int) (y0 : Int)
    ((((x1 : Int) - (x0 : Int)).natAbs : Int) -
      (((y1 : Int) - (y0 : Int)).natAbs : Int))

/-- `bridge_gaps`: endpoints are taken from the input skeleton once; each
endpoint is searched against the current (possibly already bridged)
skeleton, and a line is drawn exactly when the search returns a target. -/
def bridge_gaps (skeleton : List Bool) (w h max_gap : Nat) : List Bool :=
  (find_endpoints skeleton w h).foldl (fun cur ep =>
    match (bestTarget cur w h ep.1 ep.2 max_gap).1 with
    | some t => draw_line cur w ep.1 ep.2 t.1 t.2
    | none => cur) skeleton

/-- A pixel the search at endpoint `(ex, ey)` may connect to: in bounds,
foreground, outside the immediate 3×3 neighbourhood. -/
def isTargetCandidate (skel : List Bool) (w h ex ey tx ty : Nat) : Prop :=
  tx < w ∧ ty < h ∧ getB skel (ty * w + tx) = true ∧
  ¬(((tx : Int) - ex).natAbs ≤ 1 ∧ ((ty : Int) - ey).natAbs ≤ 1)

instance (skel : List Bool) (w h ex ey tx ty : Nat) :
    Decidable (isTargetCandidate skel w h ex ey tx ty) := by
  unfold isTargetCandidate
  infer_instance

/-- Membership in the `(2·max_gap+1)²` search window. -/
def inWindow (g ex ey tx ty : Nat) : Prop :=
  ((tx : Int) - ex).natAbs ≤ g ∧ ((ty : Int) - ey).natAbs ≤ g

instance (g ex ey tx ty : Nat) : Decidable (inWindow g ex ey tx ty) := by
  unfold inWindow
  infer_instance

/-- Squared Euclidean distance between an endpoint and a pixel. -/
def distSq (ex ey tx ty : Nat) : Nat :=
  ((((tx : Int) - ex) * ((tx : Int) - ex)) +
    (((ty : Int) - ey) * ((ty : Int) - ey))).toNat

/-- Invariant of the target-search fold: after processing the offset
pairs of `L`, the state holds the best candidate seen so far (if any),
its squared distance, and a lower bound for every candidate already
scanned. -/
def BTInv (skel : List Bool) (w h ex ey g : Nat) (L : List (Int × Int))
    (st : Option (Nat × Nat) × Nat) : Prop :=
  st.2 ≤ (g + 1) * (g + 1) ∧
  (st.1 = none → st.2 = (g + 1) * (g + 1)) ∧
  (∀ t, st.1 = some t → isTargetCandidate skel w h ex ey t.1 t.2 ∧
      distSq ex ey t.1 t.2 = st.2 ∧ st.2 < (g + 1) * (g + 1) ∧
      inWindow g ex ey t.1 t.2) ∧
  (∀ tx ty, isTargetCandidate skel w h ex ey tx ty →
      ((ty : Int) - ey, (tx : Int) - ex) ∈ L → st.2 ≤ distSq ex ey tx ty)

theorem BTInv_extend (skel : List Bool) (w h ex ey g : Nat)
    (L : List (Int × Int)) (st : Option (Nat × Nat) × Nat) (p : Int × Int)
    (hinv : BTInv skel w h ex ey g L st)
    (hnew : ∀ tx ty, isTargetCandidate skel w h ex ey tx ty →
      ((ty : Int) - ey, (tx : Int) - ex) = p → st.2 ≤ distSq ex ey tx ty) :
    BTInv skel w h ex ey g (L ++ [p]) st := by
  obtain ⟨hle, hnone, hsome, hmin⟩ := hinv
  refine ⟨hle, hnone, hsome, ?_⟩
  intro tx ty hc hmem
  rcases List.mem_append.mp hmem with hmem | hmem
  · exact hmin tx ty hc hmem
  · rw [List.mem_singleton] at hmem
    exact hnew tx ty hc hmem

theorem btStep_inv (skel : List Bool) (w h ex ey g : Nat)
    (L : List (Int × Int)) (st : Option (Nat × Nat) × Nat) (p : Int × Int)
    (hp1 : p.1.natAbs ≤ g) (hp2 : p.2.natAbs ≤ g)
    (hinv : BTInv skel w h ex ey g L st) :
    BTInv skel w h ex ey g (L ++ [p]) (btStep skel w h ex ey st p) := by
  obtain ⟨dy, dx⟩ := p
  simp only at hp1 hp2
  unfold btStep
  simp only
  by_cases h0 : dy = 0 ∧ dx = 0
  · rw [if_pos h0]
    refine BTInv_extend skel w h ex ey g L st (dy, dx) hinv ?_
    intro tx ty hc hpair
    exfalso
    obtain ⟨e1, e2⟩ := Prod.mk.injEq .. ▸ hpair
    · exact hc.2.2.2 ⟨by omega, by omega⟩
  · rw [if_neg h0]
    by_cases hb : (ey : Int) + dy < 0 ∨ (h : Int) ≤ (ey : Int) + dy ∨
        (ex : Int) + dx < 0 ∨ (w : Int) ≤ (ex : Int) + dx
    · rw [if_pos hb]
      refine BTInv_extend skel w h ex ey g L st (dy, dx) hinv ?_
      intro tx ty hc hpair
      exfalso
      have e1 : (ty : Int) - ey = dy := congrArg Prod.fst hpair
      have e2 : (tx : Int) - ex = dx := congrArg Prod.snd hpair
      have h1 : tx < w := hc.1
      have h2 : ty < h := hc.2.1
      rcases hb with hb | hb | hb | hb <;> omega
    · rw [if_neg hb]
      push_neg at hb
      obtain ⟨hb1, hb2, hb3, hb4⟩ := hb
      have hty : ((ey : Int) + dy).toNat * w + ((ex : Int) + dx).toNat =
          ((ey : Int) + dy).toNat * w + ((ex : Int) + dx).toNat := rfl
      by_cases hbg : getB skel (((ey : Int) + dy).toNat * w + ((ex : Int) + dx).toNat) = false
      · rw [if_pos hbg]
        refine BTInv_extend skel w h ex ey g L st (dy, dx) hinv ?_
        intro tx ty hc hpair
        exfalso
        have e1 : (ty : Int) - ey = dy := congrArg Prod.fst hpair
        have e2 : (tx : Int) - ex = dx := congrArg Prod.snd hpair
        have e3 : ((ey : Int) + dy).toNat = ty := by omega
        have e4 : ((ex : Int) + dx).toNat = tx := by omega
        rw [e3, e4] at hbg
        rw [hc.2.2.1] at hbg
        exact Bool.true_eq_false.mp hbg
      · rw [if_neg hbg]
        by_cases h3 : dy.natAbs ≤ 1 ∧ dx.natAbs ≤ 1
        · rw [if_pos h3]
          refine BTInv_extend skel w h ex ey g L st (dy, dx) hinv ?_
          intro tx ty hc hpair
          exfalso
          have e1 : (ty : Int) - ey = dy := congrArg Prod.fst hpair
          have e2 : (tx : Int) - ex = dx := congrArg Prod.snd hpair
          exact hc.2.2.2 ⟨by omega, by omega⟩
        · rw [if_neg h3]
          obtain ⟨hle, hnone, hsome, hmin⟩ := hinv
          by_cases h4 : (dx * dx + dy * dy).toNat < st.2
          · rw [if_pos h4]
            have e3 : ((((ex : Int) + dx).toNat : Int)) = (ex : Int) + dx := by omega
            have e4 : ((((ey : Int) + dy).toNat : Int)) = (ey : Int) + dy := by omega
            have hdist : distSq ex ey ((ex : Int) + dx).toNat ((ey : Int) + dy).toNat =
                (dx * dx + dy * dy).toNat := by
              unfold distSq
              rw [show ((((ex : Int) + dx).toNat : Int)) - (ex : Int) = dx from by omega,
                  show ((((ey : Int) + dy).toNat : Int)) - (ey : Int) = dy from by omega]
            have hcand : isTargetCandidate skel w h ex ey
                ((ex : Int) + dx).toNat ((ey : Int) + dy).toNat := by
              refine ⟨by omega, by omega, ?_, ?_⟩
              · cases hgb : getB skel
                  (((ey : Int) + dy).toNat * w + ((ex : Int) + dx).toNat)
                · exact absurd hgb hbg
                · rfl
              · intro hcontra
                apply h3
                constructor
                · have := hcontra.2
                  omega
                · have := hcontra.1
                  omega
            refine ⟨by omega, by simp, ?_, ?_⟩
            · intro t ht
              simp only [Option.some.injEq] at ht
              subst ht
              refine ⟨hcand, hdist, by omega, ?_⟩
              unfold inWindow
              constructor
              · have : ((((ex : Int) + dx).toNat : Int)) - (ex : Int) = dx := by omega
                rw [this]
                exact hp2
              · have : ((((ey : Int) + dy).toNat : Int)) - (ey : Int) = dy := by omega
                rw [this]
                exact hp1
            · intro tx ty hc hmem
              rcases List.mem_append.mp hmem with hmem | hmem
              · have := hmin tx ty hc hmem
                omega
              · rw [List.mem_singleton] at hmem
                have e1 : (ty : Int) - ey = dy := congrArg Prod.fst hmem
                have e2 : (tx : Int) - ex = dx := congrArg Prod.snd hmem
                have : distSq ex ey tx ty = (dx * dx + dy * dy).toNat := by
                  unfold distSq
                  rw [e1, e2]
                omega
          · rw [if_neg h4]
            refine BTInv_extend skel w h ex ey g L st (dy, dx)
              ⟨hle, hnone, hsome, hmin⟩ ?_
            intro tx ty hc hpair
            have e1 : (ty : Int) - ey = dy := congrArg Prod.fst hpair
            have e2 : (tx : Int) - ex = dx := congrArg Prod.snd hpair
            have : distSq ex ey tx ty = (dx * dx + dy * dy).toNat := by
              unfold distSq
              rw [e1, e2]
            omega

theorem btFold_inv (skel : List Bool) (w h ex ey g : Nat) :
    ∀ (l L : List (Int × Int)) (st : Option (Nat × Nat) × Nat),
      (∀ p ∈ l, p.1.natAbs ≤ g ∧ p.2.natAbs ≤ g) →
      BTInv skel w h ex ey g L st →
      BTInv skel w h ex ey g (L ++ l) (l.foldl (btStep skel w h ex ey) st) := by
  intro l
  induction l with
  | nil =>
    intro L st _ hinv
    simpa using hinv
  | cons p l ih =>
    intro L st hmem hinv
    rw [List.foldl_cons]
    have hp := hmem p (List.mem_cons_self p l)
    have h1 := btStep_inv skel w h ex ey g L st p hp.1 hp.2 hinv
    have h2 := ih (L ++ [p]) (btStep skel w h ex ey st p)
      (fun q hq => hmem q (List.mem_cons_of_mem p hq)) h1
    rwa [List.append_assoc, List.singleton_append] at h2

theorem mem_offs (g : Nat) (d : Int) : d ∈ offs g ↔ d.natAbs ≤ g := by
  unfold offs
  constructor
  · intro hd
    obtain ⟨i, hi, he⟩ := List.mem_map.mp hd
    rw [List.mem_range] at hi
    omega
  · intro hd
    apply List.mem_map.mpr
    exact ⟨(d + g).toNat, List.mem_range.mpr (by omega), by omega⟩

theorem mem_windowOffsets (g : Nat) (p : Int × Int) :
    p ∈ windowOffsets g ↔ p.1.natAbs ≤ g ∧ p.2.natAbs ≤ g := by
  obtain ⟨dy, dx⟩ := p
  simp only [windowOffsets, List.mem_flatMap, List.mem_map, Prod.mk.injEq]
  constructor
  · rintro ⟨dy', hdy, dx', hdx, rfl, rfl⟩
    exact ⟨(mem_offs g dy').mp hdy, (mem_offs g dx').mp hdx⟩
  · rintro ⟨h1, h2⟩
    exact ⟨dy, (mem_offs g dy).mpr h1, dx, (mem_offs g dx).mpr h2, rfl, rfl⟩

/-- C2 (amended): the search of `bridge_gaps` at an endpoint returns a
target only if it is a foreground pixel of the current skeleton inside
the `(2·max_gap+1)²` window and outside the immediate 3×3 neighbourhood,
with squared Euclidean distance `< (max_gap+1)²` (the code accepts
`dist < max_gap + 1.0`, not `dist ≤ max_gap`), minimal among all such
candidates; if no candidate with squared distance `< (max_gap+1)²`
exists the search returns none and the endpoint is left unconnected
(`bridge_gaps` draws a line only on `some`). -/
theorem bridge_gaps_nearest :
    ∀ (skel : List Bool) (w h ex ey g : Nat),
      (∀ t, (bestTarget skel w h ex ey g).1 = some t →
        isTargetCandidate skel w h ex ey t.1 t.2 ∧
        inWindow g ex ey t.1 t.2 ∧
        distSq ex ey t.1 t.2 < (g + 1) * (g + 1) ∧
        (∀ tx ty, isTargetCandidate skel w h ex ey tx ty → inWindow g ex ey tx ty →
          distSq ex ey t.1 t.2 ≤ distSq ex ey tx ty)) ∧
      ((bestTarget skel w h ex ey g).1 = none →
        ∀ tx ty, isTargetCandidate skel w h ex ey tx ty → inWindow g ex ey tx ty →
          (g + 1) * (g + 1) ≤ distSq ex ey tx ty) := by
  intro skel w h ex ey g
  have hinv0 : BTInv skel w h ex ey g [] (none, (g + 1) * (g + 1)) := by
    refine ⟨le_refl _, fun _ => rfl, ?_, ?_⟩
    · intro t ht
      exact absurd ht (by simp)
    · intro tx ty _ hmem
      exact absurd hmem (List.not_mem_nil _)
  have hfin := btFold_inv skel w h ex ey g (windowOffsets g) []
    (none, (g + 1) * (g + 1))
    (fun p hp => (mem_windowOffsets g p).mp hp) hinv0
  rw [List.nil_append] at hfin
  obtain ⟨hle, hnone, hsome, hmin⟩ := hfin
  constructor
  · intro t ht
    obtain ⟨hc, hd, hlt, hw⟩ := hsome t ht
    refine ⟨hc, hw, by omega, ?_⟩
    intro tx ty hcand hwin
    have hpair : (((ty : Int) - ey), ((tx : Int) - ex)) ∈ windowOffsets g :=
      (mem_windowOffsets g _).mpr ⟨hwin.2, hwin.1⟩
    have := hmin tx ty hcand hpair
    omega
  · intro hn tx ty hcand hwin
    have := hmin tx ty hcand
      ((mem_windowOffsets g _).mpr ⟨hwin.2, hwin.1⟩)
    rw [hnone hn] at this
    exact this

/-- Two short segments on a 7×7 grid: foreground at (1,2), (2,2) and an
isolated pixel at (4,3).  Around endpoint (2,2) the nearest non-3×3
foreground pixel is (4,3) at squared distance 5. -/
def gapMask : List Bool :=
  (List.range 49).map (fun i => i = 15 || i = 16 || i = 25)

/-- C2 (counterexample): with `max_gap = 2` no candidate around endpoint
(2,2) lies within Euclidean distance ≤ 2, yet the code selects (4,3) at
squared distance 5 > 2² and draws a connecting line (pixel (3,3) becomes
foreground), contradicting the claim that lines go only to pixels within
distance `max_gap` and that otherwise the endpoint stays unconnected. -/
theorem bridge_gaps_exceeds_max_gap :
    (2, 2) ∈ find_endpoints gapMask 7 7 ∧
    (∀ tx, tx < 7 → ∀ ty, ty < 7 → isTargetCandidate gapMask 7 7 2 2 tx ty →
      ¬(distSq 2 2 tx ty ≤ 2 * 2)) ∧
    (bestTarget gapMask 7 7 2 2 2).1 = some (4, 3) ∧
    distSq 2 2 4 3 = 5 ∧
    getB (bridge_gaps gapMask 7 7 2) (3 * 7 + 3) = true ∧
    getB gapMask (3 * 7 + 3) = false := by
  decide

/-- C2 (witness for the amended theorem): instantiated at `gapMask`,
endpoint (2,2), `max_gap = 2`, where the search returns (4,3). -/
theorem bridge_gaps_nearest_w :
    isTargetCandidate gapMask 7 7 2 2 4 3 ∧
    inWindow 2 2 2 4 3 ∧
    distSq 2 2 4 3 < (2 + 1) * (2 + 1) ∧
    (∀ tx ty, isTargetCandidate gapMask 7 7 2 2 tx ty → inWindow 2 2 2 tx ty →
      distSq 2 2 4 3 ≤ distSq 2 2 tx ty) :=
  (bridge_gaps_nearest gapMask 7 7 2 2 2).1 (4, 3) (by decide)

/-! ### Distance transform (`image_ops.rs` 7-59)

The two in-place raster scans of `distance_transform_edt` each write every
cell exactly once reading only cells finalised earlier in the same scan:
the forward pass at `idx` reads `idx−1`, `idx−w`, `idx−w−1`, `idx−w+1`
(all already written, all smaller), and the backward pass at `idx` reads
its own forward value and the backward values of `idx+1`, `idx+w`,
`idx+w+1`, `idx+w−1` (all already processed by the reversed scan).  The
passes are therefore embedded as the direct recurrences `fwd` and `bwd`.
`f32` arithmetic is idealised over `ℚ`; the literal `1.414` is exact. -/

/-- Largest finite `f32` value, `f32::MAX = 2^128 − 2^104`, with which the
source initialises the distance raster. -/
def fMAX : ℚ := 2 ^ 128 - 2 ^ 104

/-- Forward pass of `distance_transform_edt` at cell `(x, y)`: `0` on
foreground, otherwise the minimum over the already-visited up/left
neighbours of their distance plus the step cost (1 axis, 1.414 diagonal),
starting from `f32::MAX`. -/
def fwd (bin : List Bool) (w : Nat) (x y : Nat) : ℚ :=
  if getB bin (y * w + x) then 0
  else
    let v1 := fMAX
    let v2 := if _hx : 0 < x then min v1 (fwd bin w (x - 1) y + 1) else v1
    let v3 := if _hy : 0 < y then min v2 (fwd bin w x (y - 1) + 1) else v2
    let v4 := if _hxy : 0 < x ∧ 0 < y then
        min v3 (fwd bin w (x - 1) (y - 1) + 1414 / 1000) else v3
    let v5 := if _hxy2 : x + 1 < w ∧ 0 < y then
        min v4 (fwd bin w (x + 1) (y - 1) + 1414 / 1000) else v4
    v5
termination_by (y, x)

/-- Backward pass of `distance_transform_edt` at cell `(x, y)`: minimum
of the forward value and the already-finalised backward values of the
down/right neighbours plus the step cost. -/
def bwd (bin : List Bool) (w h : Nat) (x y : Nat) : ℚ :=
  let v1 := fwd bin w x y
  let v2 := if _hx : x + 1 < w then min v1 (bwd bin w h (x + 1) y + 1) else v1
  let v3 := if _hy : y + 1 < h then min v2 (bwd bin w h x (y + 1) + 1) else v2
  let v4 := if _hxy : x + 1 < w ∧ y + 1 < h then
      min v3 (bwd bin w h (x + 1) (y + 1) + 1414 / 1000) else v3
  let v5 := if _hxy2 : 0 < x ∧ y + 1 < h then
      min v4 (bwd bin w h (x - 1) (y + 1) + 1414 / 1000) else v4
  v5
termination_by (h - y, w - x)

/-- `distance_transform_edt`: the cell values after both passes, with
cell `idx` at coordinates `(idx % w, idx / w)`. -/
def distance_transform_edt (binary : List Bool) (w h : Nat) : List ℚ :=
  (List.range (w * h)).map (fun idx => bwd binary w h (idx % w) (idx / w))

/-! ### Stroke thickness normalisation (`scoring.rs` 203-230) -/

/-- The skeleton computed by `normalize_line_thickness` before any
regrowth: `skeletonize`, additionally gap-bridged (`max_gap = 10`) and
branch-pruned (8 rounds, fraction 0.15) when sanding is requested. -/
def sandedSkeleton (binary : List Bool) (w h : Nat) (apply_sanding : Bool) : List Bool :=
  if apply_sanding then
    prune_branches (bridge_gaps (skeletonize binary w h) w h 10) w h 8 (15 / 100)
  else skeletonize binary w h

/-- `normalize_line_thickness`: empty masks are returned unchanged;
otherwise the (optionally sanded) skeleton is computed, and for
`target_thickness > 1` it is regrown by thresholding its distance field
at `target_thickness / 2` — unless the skeleton lost every pixel, in
which case the original mask is returned.  The source binds the skeleton
in a `let` before the thickness test; it is inlined here (the function is
pure). -/
def normalize_line_thickness (binary : List Bool) (w h : Nat)
    (target_thickness : Nat) (apply_sanding : Bool) : List Bool :=
  if (binary.any (fun x => x)) = false then binary
  else if 1 < target_thickness then
    if ((sandedSkeleton binary w h apply_sanding).any (fun x => x)) = false then binary
    else
      (distance_transform_edt (sandedSkeleton binary w h apply_sanding) w h).map
        (fun d => decide (d ≤ (target_thickness : ℚ) / 2))
  else sandedSkeleton binary w h apply_sanding

/-- C9: for a mask with at least one foreground pixel and
`target_thickness > 1`, if the (optionally sanded) skeleton contains no
foreground pixel, `normalize_line_thickness` returns the original input
mask unchanged. -/
theorem normalize_line_thickness_empty_skeleton :
    ∀ (binary : List Bool) (w h target : Nat) (sanding : Bool),
      binary.any (fun x => x) = true →
      1 < target →
      (sandedSkeleton binary w h sanding).any (fun x => x) = false →
      normalize_line_thickness binary w h target sanding = binary := by
  intro binary w h target sanding h1 h2 h3
  unfold normalize_line_thickness
  rw [if_neg (by simp [h1]), if_pos h2, if_pos h3]

/-- Mask with a 2×2 foreground block on a 4×4 grid; Zhang-Suen thinning
removes all four pixels in the first sub-iteration, so the skeleton is
empty while the input is not. -/
def blockMask : List Bool :=
  (List.range 16).map (fun i => i = 5 || i = 6 || i = 9 || i = 10)

/-- C9 (witness): the 2×2 block with target thickness 5 and no sanding is
returned unchanged because its skeleton is empty. -/
theorem normalize_line_thickness_empty_skeleton_w :
    normalize_line_thickness blockMask 4 4 5 false = blockMask :=
  normalize_line_thickness_empty_skeleton blockMask 4 4 5 false
    (by decide) (by decide) (by decide)

/-! #### Distance-field bounds (C6)

The chamfer recurrences only ever combine a neighbour's value with a step
cost of `1` or `1.414` through `min`, so every cell is non-negative, every
background cell is at least `1`, and the backward value never exceeds the
forward value.  These bounds, together with one explicit propagation step
per neighbour of an isolated foreground pixel, give the exact values
around it. -/

theorem diteMin_lb (c : Prop) [Decidable c] (v t a : ℚ) (hv : a ≤ v)
    (ht : c → a ≤ t) : a ≤ (if _h : c then min v t else v) := by
  by_cases hc : c
  · rw [dif_pos hc]
    exact le_min hv (ht hc)
  · rw [dif_neg hc]
    exact hv

theorem diteMin_le_self (c : Prop) [Decidable c] (v t : ℚ) :
    (if _h : c then min v t else v) ≤ v := by
  by_cases hc : c
  · rw [dif_pos hc]
    exact min_le_left _ _
  · rw [dif_neg hc]

theorem diteMin_le_t (c : Prop) [Decidable c] (hc : c) (v t : ℚ) :
    (if _h : c then min v t else v) ≤ t := by
  rw [dif_pos hc]
  exact min_le_right _ _

theorem one_le_fMAX : (1 : ℚ) ≤ fMAX := by
  unfold fMAX
  norm_num

theorem q1414_le_fMAX : (1414 / 1000 : ℚ) ≤ fMAX := by
  unfold fMAX
  norm_num

theorem fwd_bounds (bin : List Bool) (w : Nat) :
    ∀ y x, 0 ≤ fwd bin w x y ∧
      (getB bin (y * w + x) = false → 1 ≤ fwd bin w x y) := by
  intro y
  induction y using Nat.strong_induction_on with
  | _ y ihy =>
    intro x
    induction x using Nat.strong_induction_on with
    | _ x ihx =>
      by_cases hfg : getB bin (y * w + x)
      · rw [fwd, if_pos hfg]
        exact ⟨le_refl 0, fun hbg => absurd (hfg.symm.trans hbg) (by simp)⟩
      · have hkey : 1 ≤ fwd bin w x y := by
          rw [fwd, if_neg hfg]
          simp only
          apply diteMin_lb
          apply diteMin_lb
          apply diteMin_lb
          apply diteMin_lb
          · exact one_le_fMAX
          · intro hc
            have h0 := (ihx (x - 1) (by omega)).1
            linarith
          · intro hc
            have h0 := (ihy (y - 1) (by omega) x).1
            linarith
          · intro hc
            have h0 := (ihy (y - 1) (by omega) (x - 1)).1
            linarith
          · intro hc
            have h0 := (ihy (y - 1) (by omega) (x + 1)).1
            linarith
        exact ⟨le_trans (by norm_num) hkey, fun _ => hkey⟩

theorem bwd_bounds_aux (bin : List Bool) (w h : Nat) :
    ∀ (k : Nat) (y : Nat), h - y ≤ k → ∀ (j x : Nat), w - x ≤ j →
      0 ≤ bwd bin w h x y ∧
      (getB bin (y * w + x) = false → 1 ≤ bwd bin w h x y) := by
  intro k
  induction k using Nat.strong_induction_on with
  | _ k ihk =>
    intro y hy j
    induction j using Nat.strong_induction_on with
    | _ j ihj =>
      intro x hx
      constructor
      · rw [bwd]
        apply diteMin_lb
        apply diteMin_lb
        apply diteMin_lb
        apply diteMin_lb
        · exact (fwd_bounds bin w y x).1
        · intro hc
          have h0 := (ihj (j - 1) (by omega) (x + 1) (by omega)).1
          linarith
        · intro hc
          have h0 := (ihk (k - 1) (by omega) (y + 1) (by omega) (w - x) x (le_refl _)).1
          linarith
        · intro hc
          have h0 := (ihk (k - 1) (by omega) (y + 1) (by omega) (w - (x + 1)) (x + 1)
            (le_refl _)).1
          linarith
        · intro hc
          have h0 := (ihk (k - 1) (by omega) (y + 1) (by omega) (w - (x - 1)) (x - 1)
            (le_refl _)).1
          linarith
      · intro hbg
        rw [bwd]
        apply diteMin_lb
        apply diteMin_lb
        apply diteMin_lb
        apply diteMin_lb
        · exact (fwd_bounds bin w y x).2 hbg
        · intro hc
          have h0 := (ihj (j - 1) (by omega) (x + 1) (by omega)).1
          linarith
        · intro hc
          have h0 := (ihk (k - 1) (by omega) (y + 1) (by omega) (w - x) x (le_refl _)).1
          linarith
        · intro hc
          have h0 := (ihk (k - 1) (by omega) (y + 1) (by omega) (w - (x + 1)) (x + 1)
            (le_refl _)).1
          linarith
        · intro hc
          have h0 := (ihk (k - 1) (by omega) (y + 1) (by omega) (w - (x - 1)) (x - 1)
            (le_refl _)).1
          linarith

theorem bwd_bounds (bin : List Bool) (w h : Nat) (x y : Nat) :
    0 ≤ bwd bin w h x y ∧
      (getB bin (y * w + x) = false → 1 ≤ bwd bin w h x y) :=
  bwd_bounds_aux bin w h (h - y) y (le_refl _) (w - x) x (le_refl _)

theorem bwd_le_fwd (bin : List Bool) (w h : Nat) (x y : Nat) :
    bwd bin w h x y ≤ fwd bin w x y := by
  rw [bwd]
  exact le_trans (diteMin_le_self _ _ _)
    (le_trans (diteMin_le_self _ _ _)
      (le_trans (diteMin_le_self _ _ _) (diteMin_le_self _ _ _)))

theorem cell_lt (w h a b : Nat) (ha : a < w) (hb : b < h) :
    b * w + a < w * h := by
  have h1 : (b + 1) * w = b * w + w := Nat.succ_mul b w
  have h2 : (b + 1) * w ≤ h * w := Nat.mul_le_mul_right w (by omega)
  have h3 : h * w = w * h := Nat.mul_comm h w
  omega

theorem getB_of_length_le (bin : List Bool) (i : Nat) (h : bin.length ≤ i) :
    getB bin i = false := by
  unfold getB
  rw [List.getD_eq_getElem?_getD, List.getElem?_eq_none h]
  rfl

theorem getD_edt (bin : List Bool) (w h a b : Nat) (ha : a < w) (hb : b < h) :
    (distance_transform_edt bin w h).getD (b * w + a) 0 = bwd bin w h a b := by
  unfold distance_transform_edt
  rw [List.getD_eq_getElem?_getD, List.getElem?_map,
    List.getElem?_range (cell_lt w h a b ha hb)]
  show bwd bin w h ((b * w + a) % w) ((b * w + a) / w) = bwd bin w h a b
  rw [show (b * w + a) % w = a from by
      rw [Nat.add_comm, Nat.add_mul_mod_self_right, Nat.mod_eq_of_lt ha],
    show (b * w + a) / w = b from by
      rw [Nat.add_comm, Nat.add_mul_div_right _ _ (by omega : 0 < w),
        Nat.div_eq_of_lt ha]
      omega]

/-- C6: on any grid whose only foreground pixel `(px, py)` lies away from
the border, `distance_transform_edt` assigns the pixel itself exactly 0,
each 4-neighbour a value within 0.01 of 1.0 and each diagonal neighbour a
value within 0.01 of 1.414 (the model computes 1 and 1.414 exactly). -/
theorem distance_single_pixel :
    ∀ (bin : List Bool) (w h px py : Nat),
      1 ≤ px → px + 1 < w → 1 ≤ py → py + 1 < h →
      bin.length = w * h →
      (∀ i, i < w * h → (getB bin i = true ↔ i = py * w + px)) →
      ((distance_transform_edt bin w h).getD (py * w + px) 0 = 0 ∧
       (|(distance_transform_edt bin w h).getD (py * w + px + 1) 0 - 1| ≤ 1/100 ∧
        |(distance_transform_edt bin w h).getD (py * w + px - 1) 0 - 1| ≤ 1/100 ∧
        |(distance_transform_edt bin w h).getD ((py - 1) * w + px) 0 - 1| ≤ 1/100 ∧
        |(distance_transform_edt bin w h).getD ((py + 1) * w + px) 0 - 1| ≤ 1/100) ∧
       (|(distance_transform_edt bin w h).getD ((py - 1) * w + px - 1) 0 -
          1414/1000| ≤ 1/100 ∧
        |(distance_transform_edt bin w h).getD ((py - 1) * w + px + 1) 0 -
          1414/1000| ≤ 1/100 ∧
        |(distance_transform_edt bin w h).getD ((py + 1) * w + px - 1) 0 -
          1414/1000| ≤ 1/100 ∧
        |(distance_transform_edt bin w h).getD ((py + 1) * w + px + 1) 0 -
          1414/1000| ≤ 1/100)) := by
  intro bin w h px py hx1 hx2 hy1 hy2 hlen hsingle
  have hfg : getB bin (py * w + px) = true :=
    (hsingle _ (cell_lt w h px py (by omega) (by omega))).mpr rfl
  have hbgc : ∀ a b : Nat, a < w → ¬(a = px ∧ b = py) →
      getB bin (b * w + a) = false := by
    intro a b ha hne
    by_cases hlt : b * w + a < w * h
    · cases hgb : getB bin (b * w + a)
      · rfl
      · exfalso
        have heq := (hsingle _ hlt).mp hgb
        obtain ⟨e1, e2⟩ := rowMajor_inj w a px b py ha (by omega) heq
        exact hne ⟨e1, e2⟩
    · exact getB_of_length_le bin _ (by omega)
  have hfb := fwd_bounds bin w
  have hbb := bwd_bounds bin w h
  have hfwd0 : fwd bin w px py = 0 := by
    rw [fwd, if_pos hfg]
  have hbwd0 : bwd bin w h px py = 0 := by
    have hub := le_trans (bwd_le_fwd bin w h px py) (le_of_eq hfwd0)
    have hlb := (hbb px py).1
    linarith
  -- right neighbour (px+1, py)
  have hRf : fwd bin w (px + 1) py ≤ 1 := by
    rw [fwd, if_neg (by rw [hbgc (px + 1) py (by omega) (by omega)]; simp)]
    refine le_trans (le_trans (diteMin_le_self _ _ _)
      (le_trans (diteMin_le_self _ _ _)
        (le_trans (diteMin_le_self _ _ _)
          (diteMin_le_t _ (by omega : 0 < px + 1) _ _)))) ?_
    rw [show px + 1 - 1 = px from by omega, hfwd0]
    norm_num
  have hR : bwd bin w h (px + 1) py = 1 := by
    have hub := le_trans (bwd_le_fwd bin w h (px + 1) py) hRf
    have hlb := (hbb (px + 1) py).2 (hbgc (px + 1) py (by omega) (by omega))
    linarith
  -- bottom neighbour (px, py+1)
  have hBf : fwd bin w px (py + 1) ≤ 1 := by
    rw [fwd, if_neg (by rw [hbgc px (py + 1) (by omega) (by omega)]; simp)]
    refine le_trans (le_trans (diteMin_le_self _ _ _)
      (le_trans (diteMin_le_self _ _ _)
        (diteMin_le_t _ (by omega : 0 < py + 1) _ _))) ?_
    rw [show py + 1 - 1 = py from by omega, hfwd0]
    norm_num
  have hB : bwd bin w h px (py + 1) = 1 := by
    have hub := le_trans (bwd_le_fwd bin w h px (py + 1)) hBf
    have hlb := (hbb px (py + 1)).2 (hbgc px (py + 1) (by omega) (by omega))
    linarith
  -- left neighbour (px-1, py)
  have hL : bwd bin w h (px - 1) py = 1 := by
    have hub : bwd bin w h (px - 1) py ≤ bwd bin w h (px - 1 + 1) py + 1 := by
      rw [bwd]
      exact le_trans (diteMin_le_self _ _ _)
        (le_trans (diteMin_le_self _ _ _)
          (le_trans (diteMin_le_self _ _ _)
            (diteMin_le_t _ (by omega : px - 1 + 1 < w) _ _)))
    rw [show px - 1 + 1 = px from by omega, hbwd0] at hub
    have hlb := (hbb (px - 1) py).2 (hbgc (px - 1) py (by omega) (by omega))
    linarith
  -- top neighbour (px, py-1)
  have hT : bwd bin w h px (py - 1) = 1 := by
    have hub : bwd bin w h px (py - 1) ≤ bwd bin w h px (py - 1 + 1) + 1 := by
      rw [bwd]
      exact le_trans (diteMin_le_self _ _ _)
        (le_trans (diteMin_le_self _ _ _)
          (diteMin_le_t _ (by omega : py - 1 + 1 < h) _ _))
    rw [show py - 1 + 1 = py from by omega, hbwd0] at hub
    have hlb := (hbb px (py - 1)).2 (hbgc px (py - 1) (by omega) (by omega))
    linarith
  -- top-left diagonal (px-1, py-1)
  have hTLf : (1414/1000 : ℚ) ≤ fwd bin w (px - 1) (py - 1) := by
    rw [fwd, if_neg (by rw [hbgc (px - 1) (py - 1) (by omega) (by omega)]; simp)]
    apply diteMin_lb
    apply diteMin_lb
    apply diteMin_lb
    apply diteMin_lb
    · exact q1414_le_fMAX
    · intro hc
      have h0 := (hfb (py - 1) (px - 1 - 1)).2
        (hbgc (px - 1 - 1) (py - 1) (by omega) (by omega))
      linarith
    · intro hc
      have h0 := (hfb (py - 1 - 1) (px - 1)).2
        (hbgc (px - 1) (py - 1 - 1) (by omega) (by omega))
      linarith
    · intro hc
      have h0 := (hfb (py - 1 - 1) (px - 1 - 1)).1
      linarith
    · intro hc
      have h0 := (hfb (py - 1 - 1) (px - 1 + 1)).1
      linarith
  have hTL : bwd bin w h (px - 1) (py - 1) = 1414/1000 := by
    have hub : bwd bin w h (px - 1) (py - 1) ≤
        bwd bin w h (px - 1 + 1) (py - 1 + 1) + 1414/1000 := by
      rw [bwd]
      exact le_trans (diteMin_le_self _ _ _)
        (diteMin_le_t _ ⟨by omega, by omega⟩ _ _)
    rw [show px - 1 + 1 = px from by omega, show py - 1 + 1 = py from by omega,
      hbwd0] at hub
    have hlb : (1414/1000 : ℚ) ≤ bwd bin w h (px - 1) (py - 1) := by
      rw [bwd]
      apply diteMin_lb
      apply diteMin_lb
      apply diteMin_lb
      apply diteMin_lb
      · exact hTLf
      · intro hc
        rw [show px - 1 + 1 = px from by omega]
        have h0 := (hbb px (py - 1)).2 (hbgc px (py - 1) (by omega) (by omega))
        linarith
      · intro hc
        rw [show py - 1 + 1 = py from by omega]
        have h0 := (hbb (px - 1) py).2 (hbgc (px - 1) py (by omega) (by omega))
        linarith
      · intro hc
        have h0 := (hbb (px - 1 + 1) (py - 1 + 1)).1
        linarith
      · intro hc
        have h0 := (hbb (px - 1 - 1) (py - 1 + 1)).1
        linarith
    linarith
  -- top-right diagonal (px+1, py-1)
  have hTRf : (1414/1000 : ℚ) ≤ fwd bin w (px + 1) (py - 1) := by
    rw [fwd, if_neg (by rw [hbgc (px + 1) (py - 1) (by omega) (by omega)]; simp)]
    apply diteMin_lb
    apply diteMin_lb
    apply diteMin_lb
    apply diteMin_lb
    · exact q1414_le_fMAX
    · intro hc
      rw [show px + 1 - 1 = px from by omega]
      have h0 := (hfb (py - 1) px).2 (hbgc px (py - 1) (by omega) (by omega))
      linarith
    · intro hc
      have h0 := (hfb (py - 1 - 1) (px + 1)).2
        (hbgc (px + 1) (py - 1 - 1) (by omega) (by omega))
      linarith
    · intro hc
      have h0 := (hfb (py - 1 - 1) (px + 1 - 1)).1
      linarith
    · intro hc
      have h0 := (hfb (py - 1 - 1) (px + 1 + 1)).1
      linarith
  have hTR : bwd bin w h (px + 1) (py - 1) = 1414/1000 := by
    have hub : bwd bin w h (px + 1) (py - 1) ≤
        bwd bin w h (px + 1 - 1) (py - 1 + 1) + 1414/1000 := by
      rw [bwd]
      exact diteMin_le_t _ ⟨by omega, by omega⟩ _ _
    rw [show px + 1 - 1 = px from by omega, show py - 1 + 1 = py from by omega,
      hbwd0] at hub
    have hlb : (1414/1000 : ℚ) ≤ bwd bin w h (px + 1) (py - 1) := by
      rw [bwd]
      apply diteMin_lb
      apply diteMin_lb
      apply diteMin_lb
      apply diteMin_lb
      · exact hTRf
      · intro hc
        have h0 := (hbb (px + 1 + 1) (py - 1)).2
          (hbgc (px + 1 + 1) (py - 1) (by omega) (by omega))
        linarith
      · intro hc
        rw [show py - 1 + 1 = py from by omega]
        have h0 := (hbb (px + 1) py).2 (hbgc (px + 1) py (by omega) (by omega))
        linarith
      · intro hc
        have h0 := (hbb (px + 1 + 1) (py - 1 + 1)).1
        linarith
      · intro hc
        have h0 := (hbb (px + 1 - 1) (py - 1 + 1)).1
        linarith
    linarith
  -- bottom-left diagonal (px-1, py+1)
  have hBLf_ub : fwd bin w (px - 1) (py + 1) ≤ 1414/1000 := by
    rw [fwd, if_neg (by rw [hbgc (px - 1) (py + 1) (by omega) (by omega)]; simp)]
    refine le_trans (diteMin_le_t _ ⟨by omega, by omega⟩ _ _) ?_
    rw [show px - 1 + 1 = px from by omega, show py + 1 - 1 = py from by omega,
      hfwd0]
    norm_num
  have hBLf_lb : (1414/1000 : ℚ) ≤ fwd bin w (px - 1) (py + 1) := by
    rw [fwd, if_neg (by rw [hbgc (px - 1) (py + 1) (by omega) (by omega)]; simp)]
    apply diteMin_lb
    apply diteMin_lb
    apply diteMin_lb
    apply diteMin_lb
    · exact q1414_le_fMAX
    · intro hc
      have h0 := (hfb (py + 1) (px - 1 - 1)).2
        (hbgc (px - 1 - 1) (py + 1) (by omega) (by omega))
      linarith
    · intro hc
      rw [show py + 1 - 1 = py from by omega]
      have h0 := (hfb py (px - 1)).2 (hbgc (px - 1) py (by omega) (by omega))
      linarith
    · intro hc
      have h0 := (hfb (py + 1 - 1) (px - 1 - 1)).1
      linarith
    · intro hc
      have h0 := (hfb (py + 1 - 1) (px - 1 + 1)).1
      linarith
  have hBL : bwd bin w h (px - 1) (py + 1) = 1414/1000 := by
    have hub := le_trans (bwd_le_fwd bin w h (px - 1) (py + 1)) hBLf_ub
    have hlb : (1414/1000 : ℚ) ≤ bwd bin w h (px - 1) (py + 1) := by
      rw [bwd]
      apply diteMin_lb
      apply diteMin_lb
      apply diteMin_lb
      apply diteMin_lb
      · exact hBLf_lb
      · intro hc
        rw [show px - 1 + 1 = px from by omega]
        have h0 := (hbb px (py + 1)).2 (hbgc px (py + 1) (by omega) (by omega))
        linarith
      · intro hc
        have h0 := (hbb (px - 1) (py + 1 + 1)).2
          (hbgc (px - 1) (py + 1 + 1) (by omega) (by omega))
        linarith
      · intro hc
        have h0 := (hbb (px - 1 + 1) (py + 1 + 1)).1
        linarith
      · intro hc
        have h0 := (hbb (px - 1 - 1) (py + 1 + 1)).1
        linarith
    linarith
  -- bottom-right diagonal (px+1, py+1)
  have hBRf_ub : fwd bin w (px + 1) (py + 1) ≤ 1414/1000 := by
    rw [fwd, if_neg (by rw [hbgc (px + 1) (py + 1) (by omega) (by omega)]; simp)]
    refine le_trans (le_trans (diteMin_le_self _ _ _)
      (diteMin_le_t _ ⟨by omega, by omega⟩ _ _)) ?_
    rw [show px + 1 - 1 = px from by omega, show py + 1 - 1 = py from by omega,
      hfwd0]
    norm_num
  have hBRf_lb : (1414/1000 : ℚ) ≤ fwd bin w (px + 1) (py + 1) := by
    rw [fwd, if_neg (by rw [hbgc (px + 1) (py + 1) (by omega) (by omega)]; simp)]
    apply diteMin_lb
    apply diteMin_lb
    apply diteMin_lb
    apply diteMin_lb
    · exact q1414_le_fMAX
    · intro hc
      rw [show px + 1 - 1 = px from by omega]
      have h0 := (hfb (py + 1) px).2 (hbgc px (py + 1) (by omega) (by omega))
      linarith
    · intro hc
      rw [show py + 1 - 1 = py from by omega]
      have h0 := (hfb py (px + 1)).2 (hbgc (px + 1) py (by omega) (by omega))
      linarith
    · intro hc
      have h0 := (hfb (py + 1 - 1) (px + 1 - 1)).1
      linarith
    · intro hc
      have h0 := (hfb (py + 1 - 1) (px + 1 + 1)).1
      linarith
  have hBR : bwd bin w h (px + 1) (py + 1) = 1414/1000 := by
    have hub := le_trans (bwd_le_fwd bin w h (px + 1) (py + 1)) hBRf_ub
    have hlb : (1414/1000 : ℚ) ≤ bwd bin w h (px + 1) (py + 1) := by
      rw [bwd]
      apply diteMin_lb
      apply diteMin_lb
      apply diteMin_lb
      apply diteMin_lb
      · exact hBRf_lb
      · intro hc
        have h0 := (hbb (px + 1 + 1) (py + 1)).2
          (hbgc (px + 1 + 1) (py + 1) (by omega) (by omega))
        linarith
      · intro hc
        have h0 := (hbb (px + 1) (py + 1 + 1)).2
          (hbgc (px + 1) (py + 1 + 1) (by omega) (by omega))
        linarith
      · intro hc
        have h0 := (hbb (px + 1 + 1) (py + 1 + 1)).1
        linarith
      · intro hc
        have h0 := (hbb (px + 1 - 1) (py + 1 + 1)).1
        linarith
    linarith
  -- assemble the nine cell values
  refine ⟨?_, ⟨?_, ?_, ?_, ?_⟩, ⟨?_, ?_, ?_, ?_⟩⟩
  · rw [getD_edt bin w h px py (by omega) (by omega)]
    exact hbwd0
  · rw [show py * w + px + 1 = py * w + (px + 1) from by omega,
      getD_edt bin w h (px + 1) py (by omega) (by omega), hR]
    norm_num
  · rw [show py * w + px - 1 = py * w + (px - 1) from by omega,
      getD_edt bin w h (px - 1) py (by omega) (by omega), hL]
    norm_num
  · rw [getD_edt bin w h px (py - 1) (by omega) (by omega), hT]
    norm_num
  · rw [getD_edt bin w h px (py + 1) (by omega) (by omega), hB]
    norm_num
  · rw [show (py - 1) * w + px - 1 = (py - 1) * w + (px - 1) from by omega,
      getD_edt bin w h (px - 1) (py - 1) (by omega) (by omega), hTL]
    norm_num
  · rw [show (py - 1) * w + px + 1 = (py - 1) * w + (px + 1) from by omega,
      getD_edt bin w h (px + 1) (py - 1) (by omega) (by omega), hTR]
    norm_num
  · rw [show (py + 1) * w + px - 1 = (py + 1) * w + (px - 1) from by omega,
      getD_edt bin w h (px - 1) (py + 1) (by omega) (by omega), hBL]
    norm_num
  · rw [show (py + 1) * w + px + 1 = (py + 1) * w + (px + 1) from by omega,
      getD_edt bin w h (px + 1) (py + 1) (by omega) (by omega), hBR]
    norm_num

/-- C6 (witness): the 3×3 grid with its single foreground pixel at (1,1);
the theorem gives the centre value 0. -/
theorem distance_single_pixel_w :
    (distance_transform_edt centreMask 3 3).getD (1 * 3 + 1) 0 = 0 :=
  (distance_single_pixel centreMask 3 3 1 1 (by decide) (by decide) (by decide)
    (by decide) (by decide) (by decide)).1

end WasmScoring
